import Mathlib

/-!
Verification of `src/Task/main.cpp`: a program computing integer powers by
binary exponentiation (`binPow`) on C++ `long long` (signed 64-bit) values,
with a thin I/O wrapper (`RunMain`).

Embedding conventions:
* `long long` values are modelled as `Int`; every multiplication performed by
  the C++ code is wrapped with `wrap64`, the reduction modulo 2^64 into the
  two's-complement range [-2^63, 2^63).
* C++ `%` truncates toward zero, which is `Int.tmod`; C++ `/` truncates toward
  zero, which is `Int.tdiv`.
* `binPow` is the direct transcription of the recursive C++ function; its
  termination over every `Int` exponent is proved by the measure `n.natAbs`.
* `binPowFuel` is the same recursion with explicit fuel, returning `none` when
  the fuel is exhausted; it makes termination claims expressible.
-/

/-- 2^63 as an integer numeral. -/
def int64Half : Int := 9223372036854775808

/-- 2^64 as an integer numeral. -/
def int64Modulus : Int := 18446744073709551616

/-- Reduce an integer modulo 2^64 into the signed two's-complement range
[-2^63, 2^63): the value a C++ `long long` holds after wraparound. -/
def wrap64 (x : Int) : Int := (x + int64Half) % int64Modulus - int64Half

/-- C++ truncating remainder of a negative integer by 2 is never positive:
for negative `n`, `n % 2` is `0` or `-1`, never `1`. -/
lemma tmod_two_nonpos_of_neg (n : Int) (h : n < 0) : n.tmod 2 ≤ 0 := by
  match n, h with
  | Int.negSucc m, _ =>
    show Int.tmod (Int.negSucc m) (Int.ofNat 2) ≤ 0
    simp only [Int.tmod]
    exact neg_nonpos.mpr (Int.ofNat_nonneg _)

/-- The truncated quotient by 2 strictly shrinks the absolute value of a
nonzero integer. -/
lemma natAbs_tdiv_two_lt (n : Int) (h : n ≠ 0) : (n.tdiv 2).natAbs < n.natAbs := by
  rw [Int.natAbs_tdiv]
  exact Nat.div_lt_self (Nat.pos_of_ne_zero (Int.natAbs_ne_zero.mpr h)) (by norm_num)

/-- An integer whose truncated remainder by 2 equals 1 is positive. -/
lemma pos_of_tmod_two_eq_one {n : Int} (h : n.tmod 2 = 1) : 0 < n := by
  rcases lt_trichotomy n 0 with hlt | heq | hgt
  · have := tmod_two_nonpos_of_neg n hlt
    omega
  · subst heq
    simp [Int.zero_tmod] at h
  · exact hgt

/-- Embedding of `binPow` from `src/Task/main.cpp`:
```
long long binPow(long long a, long long n) {
    if (n == 0) { return 1; }
    if (n % 2 == 1) {
        return binPow(a, n-1) * a;
    } else {
        long long b = binPow(a, n/2);
        return b * b;
    }
}
```
C++ `%` is `Int.tmod` and `/` is `Int.tdiv` (both truncate toward zero);
each `long long` multiplication wraps modulo 2^64 via `wrap64`. -/
def binPow (a n : Int) : Int :=
  if n = 0 then 1
  else if n.tmod 2 = 1 then
    wrap64 (binPow a (n - 1) * a)
  else
    let b := binPow a (n.tdiv 2)
    wrap64 (b * b)
termination_by n.natAbs
decreasing_by
  · have hpos : 0 < n := pos_of_tmod_two_eq_one (by assumption)
    omega
  · have hne : ¬ n = 0 := by assumption
    exact natAbs_tdiv_two_lt n hne

/-- The same recursion as `binPow`, with explicit fuel: `none` means the fuel
ran out before the recursion reached its base case.  A run of the C++ function
terminates on a given input exactly when some amount of fuel suffices. -/
def binPowFuel : Nat → Int → Int → Option Int
  | 0, _, _ => none
  | fuel + 1, a, n =>
    if n = 0 then some 1
    else if n.tmod 2 = 1 then
      (binPowFuel fuel a (n - 1)).map fun r => wrap64 (r * a)
    else
      (binPowFuel fuel a (n.tdiv 2)).map fun b => wrap64 (b * b)

/-- Embedding of `RunMain` from `src/Task/main.cpp`: after the two integers
`number` and `power` have been extracted from standard input, the program
writes `binPow(number, power)` followed by a newline to standard output. -/
def RunMain (number power : Int) : String :=
  toString (binPow number power) ++ "\n"

/-! ### Basic facts about `wrap64` -/

lemma wrap64_emod (x : Int) : wrap64 x % int64Modulus = x % int64Modulus := by
  simp only [wrap64, int64Half, int64Modulus]
  omega

lemma wrap64_lb (x : Int) : -int64Half ≤ wrap64 x := by
  simp only [wrap64, int64Half, int64Modulus]
  omega

lemma wrap64_ub (x : Int) : wrap64 x < int64Half := by
  simp only [wrap64, int64Half, int64Modulus]
  omega

lemma wrap64_of_congr {x y : Int} (h : x % int64Modulus = y % int64Modulus) :
    wrap64 x = wrap64 y := by
  simp only [wrap64, int64Half, int64Modulus] at h ⊢
  omega

lemma wrap64_eq_self {x : Int} (h1 : -int64Half ≤ x) (h2 : x < int64Half) :
    wrap64 x = x := by
  simp only [wrap64, int64Half, int64Modulus] at h1 h2 ⊢
  omega

/-- Wrapping the left factor before a wrapped multiplication changes nothing:
`wrap64` is a congruence for multiplication modulo 2^64. -/
lemma wrap64_mul_left (x y : Int) : wrap64 (wrap64 x * y) = wrap64 (x * y) := by
  apply wrap64_of_congr
  rw [Int.mul_emod, wrap64_emod, ← Int.mul_emod]

/-- Wrapping both factors before a wrapped multiplication changes nothing. -/
lemma wrap64_mul_both (x y : Int) :
    wrap64 (wrap64 x * wrap64 y) = wrap64 (x * y) := by
  apply wrap64_of_congr
  rw [Int.mul_emod, wrap64_emod, wrap64_emod, ← Int.mul_emod]

/-! ### Unfolding and basic values of `binPow` -/

/-- One-step unfolding of the recursion of `binPow`. -/
lemma binPow_unfold (a n : Int) : binPow a n =
    if n = 0 then 1
    else if n.tmod 2 = 1 then wrap64 (binPow a (n - 1) * a)
    else wrap64 (binPow a (n.tdiv 2) * binPow a (n.tdiv 2)) := by
  rw [binPow]

lemma binPow_zero_eq (a : Int) : binPow a 0 = 1 := by
  rw [binPow_unfold]
  simp

/-- On natural-number exponents, `binPow` computes the exact power of the base
reduced modulo 2^64 into the signed 64-bit range. -/
lemma binPow_natCast (a : Int) (k : Nat) : binPow a (k : Int) = wrap64 (a ^ k) := by
  induction k using Nat.strong_induction_on with
  | _ k ih =>
    rw [binPow_unfold]
    by_cases hk : k = 0
    · subst hk
      norm_num
      rw [wrap64_eq_self] <;> simp [int64Half]
    · have hkz : ¬ ((k : Int) = 0) := by exact_mod_cast hk
      rw [if_neg hkz]
      by_cases hodd : (k : Int).tmod 2 = 1
      · rw [if_pos hodd]
        have h1 : (1:Nat) ≤ k := Nat.one_le_iff_ne_zero.mpr hk
        have hcast : (k : Int) - 1 = ((k - 1 : Nat) : Int) := by omega
        rw [hcast, ih (k - 1) (by omega), wrap64_mul_left, ← pow_succ,
          Nat.sub_add_cancel h1]
      · rw [if_neg hodd]
        have heven : k % 2 = 0 := by
          have h2 : ((k % 2 : Nat) : Int) = (k : Int).tmod 2 := Int.ofNat_tmod k 2
          omega
        have hcast : (k : Int).tdiv 2 = ((k / 2 : Nat) : Int) := by
          rw [Int.tdiv_eq_ediv (by positivity) (by norm_num), Int.natCast_ediv]
          rfl
        have hsum : k / 2 + k / 2 = k := by omega
        rw [hcast, ih (k / 2) (Nat.div_lt_self (Nat.pos_of_ne_zero hk) (by norm_num)),
          wrap64_mul_both, ← pow_add, hsum]

/-- `binPow a n` is the exact power `a ^ n` wrapped into signed 64-bit range,
for every nonnegative exponent `n`. -/
lemma binPow_eq_wrap_pow (a n : Int) (h : 0 ≤ n) :
    binPow a n = wrap64 (a ^ n.toNat) := by
  have hn : n = (n.toNat : Int) := (Int.toNat_of_nonneg h).symm
  rw [hn, binPow_natCast, Int.toNat_natCast]

/-- A nonpositive integer has nonpositive truncated quotient by 2. -/
lemma tdiv_two_nonpos_of_neg (n : Int) (h : n < 0) : n.tdiv 2 ≤ 0 := by
  have hn : n = -(-n) := by omega
  rw [hn, Int.neg_tdiv]
  have : 0 ≤ (-n).tdiv 2 := Int.tdiv_nonneg (by omega) (by norm_num)
  omega

/-- For every negative exponent the recursion of `binPow` only ever takes the
halving branch (truncating remainder of a negative number by 2 is never `1`),
reaches the base case, and multiplies only ones: the result is `1`. -/
lemma binPow_of_neg_aux (a : Int) (k : Nat) :
    ∀ n : Int, n.natAbs ≤ k → n < 0 → binPow a n = 1 := by
  induction k with
  | zero =>
    intro n h1 h2
    omega
  | succ k ih =>
    intro n h1 h2
    rw [binPow_unfold]
    have hne : ¬ n = 0 := by omega
    have hodd : ¬ n.tmod 2 = 1 := by
      have := tmod_two_nonpos_of_neg n h2
      omega
    rw [if_neg hne, if_neg hodd]
    have hdlt : (n.tdiv 2).natAbs < n.natAbs := natAbs_tdiv_two_lt n hne
    rcases lt_or_eq_of_le (tdiv_two_nonpos_of_neg n h2) with hd | hd
    · rw [ih (n.tdiv 2) (by omega) hd]
      decide
    · rw [hd, binPow_zero_eq]
      decide

/-- `binPow` returns `1` on every negative exponent. -/
lemma binPow_of_neg (a n : Int) (h : n < 0) : binPow a n = 1 :=
  binPow_of_neg_aux a n.natAbs n le_rfl h

/-! ### The fuel version agrees with `binPow` -/

/-- Fuel exceeding the absolute value of the exponent always suffices: the
recursion terminates (on every integer exponent) and the fuel version computes
`binPow`. -/
lemma binPowFuel_sufficient :
    ∀ (fuel : Nat) (a n : Int), n.natAbs < fuel →
      binPowFuel fuel a n = some (binPow a n) := by
  intro fuel
  induction fuel with
  | zero =>
    intro a n h
    omega
  | succ f ih =>
    intro a n h
    rw [binPow_unfold]
    simp only [binPowFuel]
    by_cases h0 : n = 0
    · rw [if_pos h0, if_pos h0]
    · rw [if_neg h0, if_neg h0]
      by_cases h1 : n.tmod 2 = 1
      · have hpos : 0 < n := pos_of_tmod_two_eq_one h1
        have hlt : (n - 1).natAbs < f := by omega
        rw [if_pos h1, if_pos h1, ih a (n - 1) hlt]
        rfl
      · have hlt : (n.tdiv 2).natAbs < f := by
          have := natAbs_tdiv_two_lt n h0
          omega
        rw [if_neg h1, if_neg h1, ih a (n.tdiv 2) hlt]
        rfl

/-- Any successful run of the fuel version, with any amount of fuel, computes
`binPow`: the recursion is deterministic in its two arguments. -/
lemma binPowFuel_sound :
    ∀ (fuel : Nat) (a n v : Int), binPowFuel fuel a n = some v →
      v = binPow a n := by
  intro fuel
  induction fuel with
  | zero =>
    intro a n v h
    simp [binPowFuel] at h
  | succ f ih =>
    intro a n v h
    rw [binPow_unfold]
    simp only [binPowFuel] at h
    by_cases h0 : n = 0
    · rw [if_pos h0] at h
      rw [if_pos h0]
      exact (Option.some.inj h).symm
    · rw [if_neg h0] at h
      rw [if_neg h0]
      by_cases h1 : n.tmod 2 = 1
      · rw [if_pos h1] at h
        rw [if_pos h1]
        rcases Option.map_eq_some'.mp h with ⟨r, hr, hv⟩
        rw [← hv, ih a (n - 1) r hr]
      · rw [if_neg h1] at h
        rw [if_neg h1]
        rcases Option.map_eq_some'.mp h with ⟨b, hb, hv⟩
        rw [← hv, ih a (n.tdiv 2) b hb]

/-- Concrete evaluation principle for `binPow`: a computation of the fuel
version with fuel `n.natAbs + 1` determines the value of `binPow`. -/
lemma binPow_eval {a n v : Int} (h : binPowFuel (n.natAbs + 1) a n = some v) :
    binPow a n = v := by
  rw [binPowFuel_sufficient (n.natAbs + 1) a n (by omega)] at h
  exact Option.some.inj h

/-! ### Claim theorems -/

/-- C1: for every base and every exponent ≥ 0 (both signed 64-bit integers),
`power(base, exponent)` — implemented as `binPow` — returns the mathematically
exact value of `base ^ exponent` reduced modulo 2^64 and interpreted as a
two's-complement signed 64-bit integer (`wrap64`); overflow wraps silently and
is never detected or reported. -/
theorem power_exact_mod_two_pow_64 (base exponent : Int)
    (hb1 : -int64Half ≤ base) (hb2 : base < int64Half)
    (he1 : 0 ≤ exponent) (he2 : exponent < int64Half) :
    binPow base exponent = wrap64 (base ^ exponent.toNat) :=
  binPow_eq_wrap_pow base exponent he1

/-- Witness for C1 at base 3, exponent 5. -/
theorem power_exact_mod_two_pow_64_witness :
    binPow 3 5 = wrap64 ((3:Int) ^ (5:Int).toNat) :=
  power_exact_mod_two_pow_64 3 5 (by norm_num [int64Half]) (by norm_num [int64Half])
    (by norm_num) (by norm_num [int64Half])

/-- C2 counterexample: the claim says the recursion never reaches its base
case for a negative exponent, i.e. no amount of fuel would suffice.  At base 2
and exponent -1, fuel 2 already produces a value, so the recursion terminates. -/
theorem binPow_neg_nontermination_cex :
    ¬ (∀ fuel : Nat, binPowFuel fuel 2 (-1) = none) := by
  intro h
  have h2 := h 2
  have h3 : binPowFuel 2 2 (-1) = some 1 := by decide
  rw [h3] at h2
  exact Option.noConfusion h2

/-- C2 amended: for every negative exponent the recursion of `binPow` does
terminate — C++ truncating `%` gives `n % 2 = -1` (never `1`) for negative odd
`n`, so only the truncating-halving branch runs, which drives the exponent to
`0` — and the returned value is `1`. -/
theorem binPow_neg_terminates (a n : Int) (h : n < 0) :
    binPowFuel (n.natAbs + 1) a n = some 1 := by
  rw [binPowFuel_sufficient (n.natAbs + 1) a n (by omega), binPow_of_neg a n h]

/-- Witness for the amended C2 at base 3, exponent -5. -/
theorem binPow_neg_terminates_witness :
    binPowFuel ((-5 : Int).natAbs + 1) 3 (-5) = some 1 :=
  binPow_neg_terminates 3 (-5) (by norm_num)

/-- C3: under the precondition `exponent ≥ 0`, `binPow` terminates for every
base: some finite fuel makes the fuel-indexed recursion reach its base case
(each recursive call strictly decreases the exponent measure). -/
theorem binPow_terminates_nonneg (a n : Int) (h : 0 ≤ n) :
    ∃ fuel : Nat, (binPowFuel fuel a n).isSome = true :=
  ⟨n.natAbs + 1, by rw [binPowFuel_sufficient (n.natAbs + 1) a n (by omega)]; rfl⟩

/-- Witness for C3 at base 2, exponent 10. -/
theorem binPow_terminates_nonneg_witness :
    ∃ fuel : Nat, (binPowFuel fuel 2 10).isSome = true :=
  binPow_terminates_nonneg 2 10 (by norm_num)

/-- C4: for every base and every exponent > 0, `binPow` satisfies the
recurrence `power(base, exponent) = power(base, exponent - 1) * base` under
64-bit wraparound multiplication. -/
theorem power_recurrence (base exponent : Int) (h : 0 < exponent) :
    binPow base exponent = wrap64 (binPow base (exponent - 1) * base) := by
  rw [binPow_eq_wrap_pow base exponent (by omega),
    binPow_eq_wrap_pow base (exponent - 1) (by omega), wrap64_mul_left]
  congr 1
  rw [← pow_succ]
  congr 1
  omega

/-- Witness for C4 at base 2, exponent 3. -/
theorem power_recurrence_witness :
    binPow 2 3 = wrap64 (binPow 2 2 * 2) :=
  power_recurrence 2 3 (by norm_num)

/-- C5: for every base, including base 0, `power(base, 0)` returns 1. -/
theorem power_zero_exponent (base : Int) : binPow base 0 = 1 :=
  binPow_zero_eq base

/-- C6: for every exponent > 0, `power(0, exponent)` returns 0. -/
theorem power_zero_base (exponent : Int) (h : 0 < exponent) :
    binPow 0 exponent = 0 := by
  rw [binPow_eq_wrap_pow 0 exponent (by omega),
    zero_pow (by omega : exponent.toNat ≠ 0)]
  decide

/-- Witness for C6 at exponent 5. -/
theorem power_zero_base_witness : binPow 0 5 = 0 :=
  power_zero_base 5 (by norm_num)

/-- C7: for every exponent ≥ 0, `power(1, exponent)` returns 1. -/
theorem power_one_base (exponent : Int) (h : 0 ≤ exponent) :
    binPow 1 exponent = 1 := by
  rw [binPow_eq_wrap_pow 1 exponent h, one_pow]
  decide

/-- Witness for C7 at exponent 7. -/
theorem power_one_base_witness : binPow 1 7 = 1 :=
  power_one_base 7 (by norm_num)

/-- C8: given well-formed input of two whitespace-separated signed integers,
the program prints `base ^ exponent` followed by a newline (whenever that
power is representable in signed 64-bit), and each concrete scenario of the
spec holds: input `2 10` outputs `1024`, `3 0` outputs `1`, `-2 3` outputs
`-8`, `5 1` outputs `5`, `0 5` outputs `0`, and `2 62` outputs
`4611686018427387904`. -/
theorem runMain_output :
    (∀ base exponent : Int, 0 ≤ exponent →
      -int64Half ≤ base ^ exponent.toNat → base ^ exponent.toNat < int64Half →
      RunMain base exponent = toString (base ^ exponent.toNat) ++ "\n") ∧
    RunMain 2 10 = "1024\n" ∧
    RunMain 3 0 = "1\n" ∧
    RunMain (-2) 3 = "-8\n" ∧
    RunMain 5 1 = "5\n" ∧
    RunMain 0 5 = "0\n" ∧
    RunMain 2 62 = "4611686018427387904\n" := by
  refine ⟨?_, ?_, ?_, ?_, ?_, ?_, ?_⟩
  · intro base exponent he h1 h2
    rw [RunMain, binPow_eq_wrap_pow base exponent he, wrap64_eq_self h1 h2]
  · rw [RunMain, show binPow 2 10 = 1024 from binPow_eval (by decide)]
    decide
  · rw [RunMain, show binPow 3 0 = 1 from binPow_eval (by decide)]
    decide
  · rw [RunMain, show binPow (-2) 3 = -8 from binPow_eval (by decide)]
    decide
  · rw [RunMain, show binPow 5 1 = 5 from binPow_eval (by decide)]
    decide
  · rw [RunMain, show binPow 0 5 = 0 from binPow_eval (by decide)]
    decide
  · rw [RunMain,
      show binPow 2 62 = 4611686018427387904 from binPow_eval (by decide)]
    decide

/-- Witness for the universally quantified part of C8 at base 3, exponent 2. -/
theorem runMain_output_witness :
    RunMain 3 2 = toString ((3:Int) ^ (2:Int).toNat) ++ "\n" :=
  runMain_output.1 3 2 (by norm_num) (by decide) (by decide)

/-- C9: `binPow` is deterministic in its two arguments: any two terminating
runs of the recursion (any fuel amounts) on the same base and exponent return
the same value.  Its embedding as a pure function of `(a, n)` reflects that
the C++ code touches no state besides its arguments and return value. -/
theorem binPow_deterministic (a n : Int) (f1 f2 : Nat) (v1 v2 : Int)
    (h1 : binPowFuel f1 a n = some v1) (h2 : binPowFuel f2 a n = some v2) :
    v1 = v2 := by
  rw [binPowFuel_sound f1 a n v1 h1, binPowFuel_sound f2 a n v2 h2]

/-- Witness for C9: two runs with different fuel on base 2, exponent 3. -/
theorem binPow_deterministic_witness : (8 : Int) = 8 :=
  binPow_deterministic 2 3 4 10 8 8 (by decide) (by decide)

/-- C10: for every base and every negative exponent, `binPow` terminates and
returns 1: C++ truncating remainder gives `n % 2 = -1` (never `1`) for
negative odd `n`, so every negative exponent takes the halving branch, and
truncating division drives it to 0 in finitely many steps. -/
theorem binPow_negative_exponent (a n : Int) (h : n < 0) :
    n.tmod 2 ≠ 1 ∧ binPowFuel (n.natAbs + 1) a n = some 1 ∧ binPow a n = 1 := by
  refine ⟨?_, ?_, binPow_of_neg a n h⟩
  · have := tmod_two_nonpos_of_neg n h
    omega
  · rw [binPowFuel_sufficient (n.natAbs + 1) a n (by omega), binPow_of_neg a n h]

/-- Witness for C10 at base 7, exponent -9. -/
theorem binPow_negative_exponent_witness :
    (-9 : Int).tmod 2 ≠ 1 ∧ binPowFuel ((-9 : Int).natAbs + 1) 7 (-9) = some 1 ∧
      binPow 7 (-9) = 1 :=
  binPow_negative_exponent 7 (-9) (by norm_num)
